import Mathlib

/-!
Shallow embedding of the chatbot intent-classification training script
(`notebooks/training.ipynb`). The script loads intents from a JSON file,
extracts (pattern, tag) pairs, tokenizes the patterns with a Keras
`Tokenizer(oov_token='<OOV>')`, pads the integer sequences to the maximum
sequence length, label-encodes the tags with sklearn's `LabelEncoder`,
one-hot encodes them with `to_categorical`, trains an LSTM model and saves
three artifacts to fixed relative paths. The library calls the script makes
(Keras tokenization and padding, sklearn label encoding, `to_categorical`)
are embedded by their semantics, specialized to the exact arguments the
script passes to them.
-/

namespace ChatbotTraining

/-- One intent object of `intents.json`: a tag and its example patterns. -/
structure Intent where
  tag : String
  patterns : List String
deriving DecidableEq

/-- The extraction loop of the script:
`for intent in data['intents']: for pattern in intent['patterns']:
sentences.append(pattern); labels.append(intent['tag'])`.
Returns the final `(sentences, labels)` pair of lists. -/
def extractLoop (its : List Intent) : List String × List String :=
  its.foldl
    (fun acc it =>
      it.patterns.foldl (fun acc2 p => (acc2.1 ++ [p], acc2.2 ++ [it.tag])) acc)
    ([], [])

/-- The `sentences` list built by the extraction loop. -/
def sentences (its : List Intent) : List String := (extractLoop its).1

/-- The `labels` list built by the extraction loop. -/
def labels (its : List Intent) : List String := (extractLoop its).2

/-- Default filter characters of Keras `text_to_word_sequence`. -/
def kerasFilters : List Char := "!\"#$%&()*+,-./:;<=>?@[\\]^_`\x7b|\x7d~\t\n".data

/-- One character of the `translate` step of `text_to_word_sequence`:
filtered characters become the split character (a space); all others kept. -/
def replaceFiltered (c : Char) : Char := if c ∈ kerasFilters then ' ' else c

/-- Splitting on the space character with empty pieces dropped, on the
character list; `acc` accumulates the current word, reversed. -/
def splitWords : List Char → List Char → List (List Char)
  | [], acc => if acc = [] then [] else [acc.reverse]
  | c :: cs, acc =>
      if c = ' ' then
        if acc = [] then splitWords cs [] else acc.reverse :: splitWords cs []
      else splitWords cs (c :: acc)

/-- Keras `text_to_word_sequence(text)` with default arguments: lowercase the
text, replace every filter character by the split character, split, and drop
empty strings. -/
def textToWordSequence (s : String) : List String :=
  (splitWords ((s.data.map Char.toLower).map replaceFiltered) []).map String.mk

/-- The out-of-vocabulary token the script passes:
`Tokenizer(oov_token='<OOV>')`. -/
def oovToken : String := "<OOV>"

/-- One `word_counts[w] += 1` update of `fit_on_texts`: the ordered
word-count dictionary keeps insertion order, incrementing existing keys. -/
def addWordCount (acc : List (String × Nat)) (w : String) : List (String × Nat) :=
  if acc.any (fun p => p.1 = w) then
    acc.map (fun p => if p.1 = w then (p.1, p.2 + 1) else p)
  else acc ++ [(w, 1)]

/-- The word counts accumulated by `fit_on_texts` over all texts in order. -/
def wordCounts (texts : List String) : List (String × Nat) :=
  texts.foldl (fun acc t => (textToWordSequence t).foldl addWordCount acc) []

/-- The `wcounts.sort(key=lambda x: x[1], reverse=True)` step of
`fit_on_texts`: sort the word counts by count, descending. -/
def sortByCountDesc (wc : List (String × Nat)) : List (String × Nat) :=
  List.insertionSort (fun a b => b.2 ≤ a.2) wc

/-- The `sorted_voc = [oov_token] + [wc[0] for wc in wcounts]` step of
`fit_on_texts`. -/
def sortedVoc (texts : List String) : List String :=
  oovToken :: (sortByCountDesc (wordCounts texts)).map Prod.fst

/-- Pairing of each list element with its position, starting at `n`:
`indexedFrom n [w0, w1, ...] = [(w0, n), (w1, n + 1), ...]`. -/
def indexedFrom : Nat → List String → List (String × Nat)
  | _, [] => []
  | n, w :: ws => (w, n) :: indexedFrom (n + 1) ws

/-- The `word_index = dict(zip(sorted_voc, range(1, len(sorted_voc) + 1)))`
step of `fit_on_texts`. The keys of `sortedVoc` are pairwise distinct
(`sortedVoc_nodup` below): the OOV token contains the filtered character `<`
so it equals no processed word, and the word-count keys are distinct by
construction of `addWordCount`; hence the Python dict is exactly this
association list. -/
def word_index (texts : List String) : List (String × Nat) :=
  indexedFrom 1 (sortedVoc texts)

/-- State of the Keras tokenizer the script uses: its fitted `word_index`. -/
structure Tokenizer where
  wordIndex : List (String × Nat)
deriving DecidableEq

/-- Freshly constructed `Tokenizer(oov_token='<OOV>')`: empty vocabulary. -/
def initialTokenizer : Tokenizer := ⟨[]⟩

/-- The call `tokenizer.fit_on_texts(sentences)`: build `word_index` from the
texts. The script fits exactly once, on the fresh tokenizer, so the word
counts start from empty. -/
def fitOnTexts (_tk : Tokenizer) (texts : List String) : Tokenizer :=
  ⟨word_index texts⟩

/-- Token lookup of one word inside `texts_to_sequences`: a known word maps
to its index, an unknown word to the OOV token's index. -/
def tokenOf (tk : Tokenizer) (w : String) : Nat :=
  match tk.wordIndex.lookup w with
  | some i => i
  | none => (tk.wordIndex.lookup oovToken).getD 0

/-- The call `tokenizer.texts_to_sequences(texts)`: Keras only reads
`word_index` here, so the unchanged tokenizer state is returned alongside
the produced sequences. -/
def textsToSequences (tk : Tokenizer) (texts : List String) :
    Tokenizer × List (List Nat) :=
  (tk, texts.map (fun t => (textToWordSequence t).map (tokenOf tk)))

/-- Tokenizer state after `tokenizer.fit_on_texts(sentences)`. -/
def fittedTokenizer (its : List Intent) : Tokenizer :=
  fitOnTexts initialTokenizer (sentences its)

/-- The `sequences = tokenizer.texts_to_sequences(sentences)` value. -/
def sequences (its : List Intent) : List (List Nat) :=
  (textsToSequences (fittedTokenizer its) (sentences its)).2

/-- Tokenizer state after `texts_to_sequences` — the object that
`pickle.dump(tokenizer, handle)` serializes at the end of the script. -/
def persistedTokenizer (its : List Intent) : Tokenizer :=
  (textsToSequences (fittedTokenizer its) (sentences its)).1

/-- The `max_length = max(len(seq) for seq in sequences)` step: `max` of an
empty sequence raises `ValueError`, modelled as `Except.error`. -/
def maxLengthOf (seqs : List (List Nat)) : Except String Nat :=
  match seqs with
  | [] => Except.error "max() arg is an empty sequence"
  | s :: rest => Except.ok (rest.foldl (fun m t => max m t.length) s.length)

/-- Padding of one sequence by
`pad_sequences(..., maxlen, padding='post')` with the default pre-truncation
and padding value 0. -/
def padOne (maxlen : Nat) (seq : List Nat) : List Nat :=
  let trunc := if seq.length ≤ maxlen then seq else seq.drop (seq.length - maxlen)
  trunc ++ List.replicate (maxlen - trunc.length) 0

/-- The call `pad_sequences(sequences, maxlen=max_length, padding='post')`. -/
def pad_sequences (maxlen : Nat) (seqs : List (List Nat)) : List (List Nat) :=
  seqs.map (padOne maxlen)

/-- The `padded_sequences` value, defined when `max_length` is. -/
def padded_sequencesOf (its : List Intent) : Except String (List (List Nat)) := do
  let m ← maxLengthOf (sequences its)
  pure (pad_sequences m (sequences its))

/-- Boolean lexicographic comparison of character lists by code point — the
order numpy uses to compare strings inside `np.unique`. -/
def lexLtChars : List Char → List Char → Bool
  | [], [] => false
  | [], _ :: _ => true
  | _ :: _, [] => false
  | a :: as, b :: bs =>
      if a < b then true else if b < a then false else lexLtChars as bs

/-- String comparison by code points, as numpy compares strings. -/
def strLtB (a b : String) : Bool := lexLtChars a.data b.data

/-- The call `label_encoder.fit(labels)` stores
`classes_ = np.unique(labels)`: the distinct labels, sorted ascending. -/
def label_encoder_classes (ls : List String) : List String :=
  List.insertionSort (fun a b => strLtB b a = false) ls.dedup

/-- The transform of one label: its position in `classes_` (sklearn raises
for labels unseen at fit time; the script transforms the very list it
fitted, where every label is present). -/
def le_transform (ls : List String) (l : String) : Nat :=
  List.indexOf l (label_encoder_classes ls)

/-- The inverse transform of one index: `classes_[i]`, with `none` modelling
the out-of-range `IndexError`. -/
def le_inverse_transform (ls : List String) (i : Nat) : Option String :=
  (label_encoder_classes ls).get? i

/-- The `encoded_labels = label_encoder.transform(labels)` value. -/
def encoded_labels (its : List Intent) : List Nat :=
  (labels its).map (le_transform (labels its))

/-- The `num_classes = len(label_encoder.classes_)` value. -/
def num_classes (its : List Intent) : Nat :=
  (label_encoder_classes (labels its)).length

/-- One row of `tf.keras.utils.to_categorical`: the one-hot vector of `y`
over `numClasses` classes. -/
def oneHotRow (numClasses y : Nat) : List Nat :=
  (List.range numClasses).map (fun j => if j = y then 1 else 0)

/-- The call `to_categorical(encoded_labels, num_classes=num_classes)`. -/
def to_categorical (numClasses : Nat) (ys : List Nat) : List (List Nat) :=
  ys.map (oneHotRow numClasses)

/-- The `one_hot_labels` value. -/
def one_hot_labels (its : List Intent) : List (List Nat) :=
  to_categorical (num_classes its) (encoded_labels its)

/-- The `input_dim=len(word_index) + 1` argument of the `Embedding` layer,
where `word_index = tokenizer.word_index` after fitting. -/
def input_dim (its : List Intent) : Nat :=
  (fittedTokenizer its).wordIndex.length + 1

/-- Content of each saved file. The model file is an opaque weight blob; the
architecture hyperparameters determining it are recorded. -/
inductive Artifact where
  | modelFile (inputDim maxLen numClasses : Nat)
  | tokenizerPickle (tk : Tokenizer)
  | labelEncoderPickle (classes : List String)
deriving DecidableEq

/-- The three writes of the final cell, in order: `model.save(...)` and the
two `pickle.dump(...)` calls, each to its fixed relative path. -/
def savedFiles (its : List Intent) (maxLen : Nat) : List (String × Artifact) :=
  [("../model/chatbot_model.h5",
      Artifact.modelFile (input_dim its) maxLen (num_classes its)),
   ("../model/tokenizer.pickle",
      Artifact.tokenizerPickle (persistedTokenizer its)),
   ("../model/label_encoder.pickle",
      Artifact.labelEncoderPickle (label_encoder_classes (labels its)))]

/-- The whole script run. Its argument is the result of
`json.load(open('../data/intents.json'))`: an `Except.error` when the file
is missing or holds malformed JSON, otherwise the parsed intents. The result
is the list of files written, or the uncaught exception that halted the
run before the save cell. -/
def runScript (load : Except String (List Intent)) :
    Except String (List (String × Artifact)) := do
  let its ← load
  let m ← maxLengthOf (sequences its)
  pure (savedFiles its m)

/-- Files a run leaves on disk: none when the script halts with an uncaught
exception before the save cell. -/
def writtenFiles (r : Except String (List (String × Artifact))) :
    List (String × Artifact) :=
  match r with
  | Except.ok l => l
  | Except.error _ => []

/-- Small dataset in the shape of `intents.json`, used to evaluate the
embedding at concrete inputs. -/
def demoIntents : List Intent :=
  [⟨"greeting", ["Hi there", "Hello!"]⟩, ⟨"bye", ["See you later", "Bye"]⟩]

/-! ## Extraction loop -/

theorem patternsFold_spec (t : String) :
    ∀ (ps : List String) (acc : List String × List String),
      ps.foldl (fun a p => (a.1 ++ [p], a.2 ++ [t])) acc =
        (acc.1 ++ ps, acc.2 ++ ps.map (fun _ => t)) := by
  intro ps
  induction ps with
  | nil => intro acc; simp
  | cons p ps ih =>
      intro acc
      simp only [List.foldl_cons, ih, List.map_cons]
      simp

theorem extractLoop_go :
    ∀ (its : List Intent) (acc : List String × List String),
      its.foldl
          (fun acc2 it =>
            it.patterns.foldl (fun a p => (a.1 ++ [p], a.2 ++ [it.tag])) acc2)
          acc =
        (acc.1 ++ its.flatMap (fun it => it.patterns),
         acc.2 ++ its.flatMap (fun it => it.patterns.map (fun _ => it.tag))) := by
  intro its
  induction its with
  | nil => intro acc; simp
  | cons it its ih =>
      intro acc
      simp only [List.foldl_cons]
      rw [patternsFold_spec, ih]
      simp [List.append_assoc]

theorem sentences_eq (its : List Intent) :
    sentences its = its.flatMap (fun it => it.patterns) := by
  have h := extractLoop_go its ([], [])
  simp only [sentences, extractLoop, h]
  simp

theorem labels_eq (its : List Intent) :
    labels its = its.flatMap (fun it => it.patterns.map (fun _ => it.tag)) := by
  have h := extractLoop_go its ([], [])
  simp only [labels, extractLoop, h]
  simp

theorem zip_const_map (t : String) (ps : List String) :
    ps.zip (ps.map fun _ => t) = ps.map fun p => (p, t) := by
  induction ps with
  | nil => rfl
  | cons p ps ih => simp only [List.map_cons, List.zip_cons_cons, ih]

theorem zip_sentences_labels (its : List Intent) :
    (sentences its).zip (labels its) =
      its.flatMap (fun it => it.patterns.map (fun p => (p, it.tag))) := by
  rw [sentences_eq, labels_eq]
  induction its with
  | nil => rfl
  | cons it its ih =>
      simp only [List.flatMap_cons]
      rw [List.zip_append (by simp), ih, zip_const_map]

theorem length_sentences_eq_length_labels (its : List Intent) :
    (sentences its).length = (labels its).length := by
  rw [sentences_eq, labels_eq]
  induction its with
  | nil => rfl
  | cons it its ih => simp [ih]

/-- C2: after the extraction loop, `sentences` and `labels` have equal
length; each label is the tag of an intent whose patterns contain the
corresponding sentence; and the pairs appear in intent order and, within
each intent, in pattern order (the zipped list is exactly the in-order
flattening of the intents). -/
theorem extraction_pairs_spec (its : List Intent) :
    (sentences its).length = (labels its).length ∧
    ((sentences its).zip (labels its) =
       its.flatMap (fun it => it.patterns.map (fun p => (p, it.tag)))) ∧
    ∀ i, i < (sentences its).length →
      ∃ it, it ∈ its ∧ (labels its).getD i "" = it.tag ∧
        (sentences its).getD i "" ∈ it.patterns := by
  refine ⟨length_sentences_eq_length_labels its, zip_sentences_labels its, ?_⟩
  intro i hi
  have hl : i < (labels its).length := by
    rw [← length_sentences_eq_length_labels]; exact hi
  have hz : i < ((sentences its).zip (labels its)).length := by
    rw [List.length_zip]; omega
  have hmem : ((sentences its).zip (labels its))[i] ∈
      its.flatMap (fun it => it.patterns.map (fun p => (p, it.tag))) := by
    rw [← zip_sentences_labels]
    exact List.getElem_mem hz
  rw [List.mem_flatMap] at hmem
  obtain ⟨it, hit, hpair⟩ := hmem
  rw [List.mem_map] at hpair
  obtain ⟨p, hp, hpe⟩ := hpair
  have hzi : ((sentences its).zip (labels its))[i] =
      ((sentences its)[i], (labels its)[i]) := List.getElem_zip
  refine ⟨it, hit, ?_, ?_⟩
  · rw [List.getD_eq_getElem _ _ hl]
    have : (labels its)[i] = it.tag := by
      have := hpe ▸ hzi
      exact (congrArg Prod.snd this.symm).trans rfl
    exact this
  · rw [List.getD_eq_getElem _ _ hi]
    have : (sentences its)[i] = p := by
      have := hpe ▸ hzi
      exact (congrArg Prod.fst this.symm).trans rfl
    exact this ▸ hp

/-- Witness for C2, at the demo dataset: equal lengths, and the tag paired
with the first extracted sentence is the first intent's tag. -/
theorem extraction_pairs_spec_witness :
    (sentences demoIntents).length = (labels demoIntents).length ∧
    (labels demoIntents).getD 0 "" = "greeting" := by
  obtain ⟨it, hit, htag, hpat⟩ := (extraction_pairs_spec demoIntents).2.2 0 (by decide)
  refine ⟨(extraction_pairs_spec demoIntents).1, ?_⟩
  rcases List.mem_cons.mp hit with rfl | h
  · rw [htag]
  · rcases List.mem_cons.mp h with rfl | h
    · exact absurd hpat (by decide)
    · cases h

/-! ## Maximum sequence length and padding -/

theorem le_foldl_max (l : List (List Nat)) :
    ∀ a : Nat, a ≤ l.foldl (fun m t => max m t.length) a := by
  induction l with
  | nil => intro a; exact Nat.le_refl a
  | cons s l ih =>
      intro a
      exact Nat.le_trans (Nat.le_max_left a s.length) (ih (max a s.length))

theorem mem_le_foldl_max (l : List (List Nat)) :
    ∀ (a : Nat) (s : List Nat), s ∈ l →
      s.length ≤ l.foldl (fun m t => max m t.length) a := by
  induction l with
  | nil => intro a s hs; cases hs
  | cons s0 l ih =>
      intro a s hs
      rcases List.mem_cons.mp hs with rfl | hs
      · exact Nat.le_trans (Nat.le_max_right a s.length) (le_foldl_max l _)
      · exact ih (max a s0.length) s hs

theorem maxLengthOf_le {seqs : List (List Nat)} {m : Nat}
    (h : maxLengthOf seqs = Except.ok m) : ∀ s ∈ seqs, s.length ≤ m := by
  cases seqs with
  | nil => simp [maxLengthOf] at h
  | cons s0 rest =>
      simp only [maxLengthOf, Except.ok.injEq] at h
      subst h
      intro s hs
      rcases List.mem_cons.mp hs with rfl | hs
      · exact le_foldl_max rest s.length
      · exact mem_le_foldl_max rest s0.length s hs

/-- C9: the script needs at least one extracted pattern. The sequence list
is empty exactly when the sentence list is; on a nonempty sentence list the
`max` computation succeeds (`max_length` is well defined), and on an empty
one it raises `ValueError: max() arg is an empty sequence`. -/
theorem max_length_requires_nonempty (its : List Intent) :
    (sequences its = [] ↔ sentences its = []) ∧
    (sentences its ≠ [] → (maxLengthOf (sequences its)).isOk = true) ∧
    (sentences its = [] →
      maxLengthOf (sequences its) =
        Except.error "max() arg is an empty sequence") := by
  have hseq : sequences its =
      (sentences its).map
        (fun t => (textToWordSequence t).map (tokenOf (fittedTokenizer its))) := rfl
  refine ⟨?_, ?_, ?_⟩
  · rw [hseq]; simp
  · intro hne
    cases hs : sentences its with
    | nil => exact absurd hs hne
    | cons t ts => rw [hseq, hs]; rfl
  · intro he
    rw [hseq, he]
    rfl

/-- Witness for C9: on the demo dataset `max_length` is defined; on the
empty intent list the `max` call fails. -/
theorem max_length_requires_nonempty_witness :
    (maxLengthOf (sequences demoIntents)).isOk = true ∧
    maxLengthOf (sequences ([] : List Intent)) =
      Except.error "max() arg is an empty sequence" :=
  ⟨(max_length_requires_nonempty demoIntents).2.1 (by decide),
   (max_length_requires_nonempty ([] : List Intent)).2.2 rfl⟩

theorem padOne_of_le {m : Nat} {s : List Nat} (h : s.length ≤ m) :
    padOne m s = s ++ List.replicate (m - s.length) 0 := by
  simp only [padOne]
  rw [if_pos h]

/-- C1: when `max_length` is defined, every padded sequence is its source
sequence with padding zeros appended at the end, and every padded sequence
has length exactly `max_length`; hence all padded sequences have equal
length. -/
theorem padded_sequences_uniform_length (its : List Intent) (m : Nat)
    (h : maxLengthOf (sequences its) = Except.ok m) :
    padded_sequencesOf its =
      Except.ok ((sequences its).map (fun s => s ++ List.replicate (m - s.length) 0)) ∧
    (∀ s ∈ sequences its, (s ++ List.replicate (m - s.length) 0).length = m) ∧
    ∀ p ∈ pad_sequences m (sequences its), p.length = m := by
  have hb := maxLengthOf_le h
  have hpad : ∀ s ∈ sequences its,
      padOne m s = s ++ List.replicate (m - s.length) 0 :=
    fun s hs => padOne_of_le (hb s hs)
  have hlen : ∀ s ∈ sequences its,
      (s ++ List.replicate (m - s.length) 0).length = m := by
    intro s hs
    have := hb s hs
    simp [List.length_append, List.length_replicate]
    omega
  refine ⟨?_, hlen, ?_⟩
  · have h1 : padded_sequencesOf its =
        Except.ok (pad_sequences m (sequences its)) := by
      unfold padded_sequencesOf
      rw [h]
      rfl
    rw [h1]
    exact congrArg Except.ok (List.map_congr_left hpad)
  · intro p hp
    simp only [pad_sequences, List.mem_map] at hp
    obtain ⟨s, hs, rfl⟩ := hp
    rw [hpad s hs]
    exact hlen s hs

/-- Witness for C1: the padded sequences of the demo dataset. -/
theorem padded_sequences_uniform_length_witness :
    padded_sequencesOf demoIntents =
      Except.ok [[2, 3, 0], [4, 0, 0], [5, 6, 7], [8, 0, 0]] :=
  ((padded_sequences_uniform_length demoIntents 3 rfl).1).trans (by rfl)

/-! ## Label encoder -/

theorem mem_label_encoder_classes {ls : List String} {l : String} :
    l ∈ label_encoder_classes ls ↔ l ∈ ls := by
  unfold label_encoder_classes
  rw [(List.perm_insertionSort _ _).mem_iff, List.mem_dedup]

theorem nodup_label_encoder_classes (ls : List String) :
    (label_encoder_classes ls).Nodup :=
  (List.perm_insertionSort _ _).nodup_iff.mpr (List.nodup_dedup ls)

theorem le_transform_lt {ls : List String} {l : String} (h : l ∈ ls) :
    le_transform ls l < (label_encoder_classes ls).length := by
  unfold le_transform
  exact List.indexOf_lt_length.mpr (mem_label_encoder_classes.mpr h)

theorem le_roundtrip {ls : List String} {l : String} (h : l ∈ ls) :
    le_inverse_transform ls (le_transform ls l) = some l := by
  unfold le_inverse_transform le_transform
  exact List.indexOf_get? (mem_label_encoder_classes.mpr h)

/-- C3: the label encoding is bidirectional on the fitted tags: for every
tag that occurred during fitting, the inverse transform of the transform
returns the tag (also element-wise over the whole fitted list), and every
encoded label is a dense index below `num_classes`. -/
theorem label_encoder_bijective_on_fitted (its : List Intent) :
    (∀ l ∈ labels its,
       le_inverse_transform (labels its) (le_transform (labels its) l) = some l ∧
       le_transform (labels its) l < num_classes its) ∧
    (labels its).map
        (fun l => le_inverse_transform (labels its) (le_transform (labels its) l)) =
      (labels its).map some :=
  ⟨fun _ hl => ⟨le_roundtrip hl, le_transform_lt hl⟩,
   List.map_congr_left fun _ hl => le_roundtrip hl⟩

/-- Witness for C3, at the tag `greeting` of the demo dataset. -/
theorem label_encoder_bijective_on_fitted_witness :
    le_inverse_transform (labels demoIntents)
        (le_transform (labels demoIntents) "greeting") = some "greeting" ∧
    le_transform (labels demoIntents) "greeting" < num_classes demoIntents :=
  (label_encoder_bijective_on_fitted demoIntents).1 "greeting" (by decide)

/-! ## One-hot encoding -/

theorem sum_indicator (y : Nat) :
    ∀ l : List Nat, (l.map (fun j => if j = y then (1 : Nat) else 0)).sum = l.count y := by
  intro l
  induction l with
  | nil => rfl
  | cons a l ih => simp [List.count_cons, ih, Nat.add_comm]

theorem sum_oneHotRow {n y : Nat} (h : y < n) : (oneHotRow n y).sum = 1 := by
  unfold oneHotRow
  rw [sum_indicator]
  exact List.count_eq_one_of_mem (List.nodup_range n) (List.mem_range.mpr h)

theorem length_oneHotRow (n y : Nat) : (oneHotRow n y).length = n := by
  simp [oneHotRow]

theorem getD_oneHotRow {n y j : Nat} (hj : j < n) :
    (oneHotRow n y).getD j 0 = if j = y then 1 else 0 := by
  have hjl : j < (oneHotRow n y).length := by rw [length_oneHotRow]; exact hj
  rw [List.getD_eq_getElem _ _ hjl]
  unfold oneHotRow
  rw [List.getElem_map, List.getElem_range]

/-- C4: every row of `one_hot_labels` has length `num_classes`, sums to 1,
and carries its single 1 exactly at the position of the example's encoded
integer label, with 0 everywhere else. -/
theorem one_hot_rows_spec (its : List Intent) :
    ∀ i, i < (one_hot_labels its).length →
      ((one_hot_labels its).getD i []).length = num_classes its ∧
      ((one_hot_labels its).getD i []).sum = 1 ∧
      ∀ j, j < num_classes its →
        ((one_hot_labels its).getD i []).getD j 0 =
          if j = (encoded_labels its).getD i 0 then 1 else 0 := by
  intro i hi
  have hle : (one_hot_labels its).length = (encoded_labels its).length := by
    simp [one_hot_labels, to_categorical]
  have hie : i < (encoded_labels its).length := hle ▸ hi
  have hll : i < (labels its).length := by
    have : (encoded_labels its).length = (labels its).length := by
      simp [encoded_labels]
    omega
  have hrow : (one_hot_labels its).getD i [] =
      oneHotRow (num_classes its) ((encoded_labels its).getD i 0) := by
    rw [List.getD_eq_getElem _ _ hi, List.getD_eq_getElem _ _ hie]
    simp only [one_hot_labels, to_categorical]
    rw [List.getElem_map]
  have henc : (encoded_labels its).getD i 0 =
      le_transform (labels its) ((labels its)[i]) := by
    rw [List.getD_eq_getElem _ _ hie]
    simp only [encoded_labels]
    rw [List.getElem_map]
  have hlt : (encoded_labels its).getD i 0 < num_classes its := by
    rw [henc]
    exact le_transform_lt (List.getElem_mem hll)
  refine ⟨?_, ?_, ?_⟩
  · rw [hrow]; exact length_oneHotRow _ _
  · rw [hrow]; exact sum_oneHotRow hlt
  · intro j hj
    rw [hrow]
    exact getD_oneHotRow hj

/-- Witness for C4: the first one-hot row of the demo dataset sums to 1. -/
theorem one_hot_rows_spec_witness :
    ((one_hot_labels demoIntents).getD 0 []).sum = 1 :=
  (one_hot_rows_spec demoIntents 0 (by decide)).2.1

/-! ## Vocabulary construction -/

theorem map_fst_addWordCount (acc : List (String × Nat)) (w : String) :
    (addWordCount acc w).map Prod.fst =
      if acc.any (fun p => p.1 = w) then acc.map Prod.fst
      else acc.map Prod.fst ++ [w] := by
  unfold addWordCount
  split
  · rw [List.map_map]
    exact List.map_congr_left fun p _ => by by_cases hp : p.1 = w <;> simp [hp]
  · simp

theorem mem_map_fst_foldl_addWordCount :
    ∀ (ws : List String) (acc : List (String × Nat)) (x : String),
      x ∈ (ws.foldl addWordCount acc).map Prod.fst ↔
        x ∈ acc.map Prod.fst ∨ x ∈ ws := by
  intro ws
  induction ws with
  | nil => intro acc x; simp
  | cons w ws ih =>
      intro acc x
      rw [List.foldl_cons, ih, map_fst_addWordCount]
      split
      · next h =>
          have hw : w ∈ acc.map Prod.fst := by
            rw [List.any_eq_true] at h
            obtain ⟨p, hp, hpe⟩ := h
            exact List.mem_map.mpr ⟨p, hp, by simpa using hpe⟩
          constructor
          · rintro (hx | hx)
            · exact Or.inl hx
            · exact Or.inr (List.mem_cons_of_mem _ hx)
          · rintro (hx | hx)
            · exact Or.inl hx
            · rcases List.mem_cons.mp hx with rfl | hx
              · exact Or.inl hw
              · exact Or.inr hx
      · next h =>
          rw [List.mem_append, List.mem_singleton, List.mem_cons]
          tauto

theorem nodup_map_fst_foldl_addWordCount :
    ∀ (ws : List String) (acc : List (String × Nat)),
      (acc.map Prod.fst).Nodup → ((ws.foldl addWordCount acc).map Prod.fst).Nodup := by
  intro ws
  induction ws with
  | nil => intro acc h; exact h
  | cons w ws ih =>
      intro acc h
      rw [List.foldl_cons]
      apply ih
      rw [map_fst_addWordCount]
      split
      · exact h
      · next hna =>
          rw [List.nodup_append]
          refine ⟨h, List.nodup_singleton w, ?_⟩
          intro x hx hxw
          rcases List.mem_singleton.mp hxw with rfl
          obtain ⟨p, hp, hpe⟩ := List.mem_map.mp hx
          exact hna (List.any_eq_true.mpr ⟨p, hp, by simp [hpe]⟩)

theorem wordCounts_eq_flat :
    ∀ (texts : List String) (acc : List (String × Nat)),
      texts.foldl (fun acc2 t => (textToWordSequence t).foldl addWordCount acc2) acc =
        (texts.flatMap textToWordSequence).foldl addWordCount acc := by
  intro texts
  induction texts with
  | nil => intro acc; rfl
  | cons t ts ih =>
      intro acc
      rw [List.foldl_cons, ih, List.flatMap_cons, List.foldl_append]

theorem mem_keys_wordCounts (texts : List String) (x : String) :
    x ∈ (wordCounts texts).map Prod.fst ↔ x ∈ texts.flatMap textToWordSequence := by
  unfold wordCounts
  rw [wordCounts_eq_flat, mem_map_fst_foldl_addWordCount]
  simp

theorem nodup_keys_wordCounts (texts : List String) :
    ((wordCounts texts).map Prod.fst).Nodup := by
  unfold wordCounts
  rw [wordCounts_eq_flat]
  exact nodup_map_fst_foldl_addWordCount _ [] (by simp)

theorem splitWords_no_lt_char :
    ∀ (cs acc : List Char), (∀ c ∈ cs, c = ' ' ∨ c ≠ '<') → (∀ c ∈ acc, c ≠ '<') →
      ∀ w ∈ splitWords cs acc, ∀ c ∈ w, c ≠ '<' := by
  intro cs
  induction cs with
  | nil =>
      intro acc _ hacc w hw
      simp only [splitWords] at hw
      split at hw
      · cases hw
      · rcases List.mem_singleton.mp hw with rfl
        intro c hc
        exact hacc c (List.mem_reverse.mp hc)
  | cons c0 cs ih =>
      intro acc hcs hacc w hw
      simp only [splitWords] at hw
      split at hw
      · split at hw
        · exact ih [] (fun c hc => hcs c (List.mem_cons_of_mem _ hc))
            (fun c hc => by cases hc) w hw
        · rcases List.mem_cons.mp hw with rfl | hw
          · intro c hc
            exact hacc c (List.mem_reverse.mp hc)
          · exact ih [] (fun c hc => hcs c (List.mem_cons_of_mem _ hc))
              (fun c hc => by cases hc) w hw
      · next hne =>
          refine ih (c0 :: acc) (fun c hc => hcs c (List.mem_cons_of_mem _ hc)) ?_ w hw
          intro c hc
          rcases List.mem_cons.mp hc with rfl | hc
          · rcases hcs c (List.mem_cons_self c cs) with h | h
            · exact absurd h hne
            · exact h
          · exact hacc c hc

theorem mapped_no_lt_char (s : String) :
    ∀ c ∈ (s.data.map Char.toLower).map replaceFiltered, c = ' ' ∨ c ≠ '<' := by
  intro c hc
  rw [List.mem_map] at hc
  obtain ⟨c0, _, rfl⟩ := hc
  unfold replaceFiltered
  split
  · exact Or.inl rfl
  · next h =>
      right
      intro he
      exact h (he ▸ (by decide : '<' ∈ kerasFilters))

theorem oovToken_not_mem_textToWordSequence (s : String) :
    oovToken ∉ textToWordSequence s := by
  intro hmem
  unfold textToWordSequence at hmem
  rw [List.mem_map] at hmem
  obtain ⟨w, hw, he⟩ := hmem
  have hchars :=
    splitWords_no_lt_char _ [] (mapped_no_lt_char s) (fun c hc => by cases hc) w hw
  have hd : w = oovToken.data := congrArg String.data he
  have hlt : '<' ∈ w := by rw [hd]; decide
  exact hchars '<' hlt rfl

theorem mem_sortedVoc (texts : List String) (x : String) :
    x ∈ sortedVoc texts ↔ x = oovToken ∨ x ∈ texts.flatMap textToWordSequence := by
  unfold sortedVoc sortByCountDesc
  have hperm :=
    (List.perm_insertionSort (fun a b : String × Nat => b.2 ≤ a.2)
      (wordCounts texts)).map Prod.fst
  rw [List.mem_cons, hperm.mem_iff, mem_keys_wordCounts]

theorem sortedVoc_nodup (texts : List String) : (sortedVoc texts).Nodup := by
  unfold sortedVoc sortByCountDesc
  have hperm :=
    (List.perm_insertionSort (fun a b : String × Nat => b.2 ≤ a.2)
      (wordCounts texts)).map Prod.fst
  rw [List.nodup_cons]
  constructor
  · intro hmem
    have hm := hperm.mem_iff.mp hmem
    rw [mem_keys_wordCounts] at hm
    obtain ⟨s, _, hs⟩ := List.mem_flatMap.mp hm
    exact oovToken_not_mem_textToWordSequence s hs
  · exact hperm.nodup_iff.mpr (nodup_keys_wordCounts texts)

theorem length_indexedFrom :
    ∀ (l : List String) (n : Nat), (indexedFrom n l).length = l.length := by
  intro l
  induction l with
  | nil => intro n; rfl
  | cons w ws ih => intro n; simp only [indexedFrom, List.length_cons, ih]

theorem map_fst_indexedFrom :
    ∀ (l : List String) (n : Nat), (indexedFrom n l).map Prod.fst = l := by
  intro l
  induction l with
  | nil => intro n; rfl
  | cons w ws ih => intro n; simp only [indexedFrom, List.map_cons, ih]

theorem length_word_index (texts : List String) :
    (word_index texts).length = (sortedVoc texts).length :=
  length_indexedFrom _ 1

theorem map_fst_word_index (texts : List String) :
    (word_index texts).map Prod.fst = sortedVoc texts :=
  map_fst_indexedFrom _ 1

theorem length_keys_eq_dedup (texts : List String) :
    ((wordCounts texts).map Prod.fst).length =
      (texts.flatMap textToWordSequence).dedup.length := by
  have hperm : ((wordCounts texts).map Prod.fst).Perm
      (texts.flatMap textToWordSequence).dedup := by
    rw [List.perm_ext_iff_of_nodup (nodup_keys_wordCounts texts) (List.nodup_dedup _)]
    intro a
    rw [mem_keys_wordCounts, List.mem_dedup]
  exact hperm.length_eq

/-- C5: the Embedding layer's `input_dim` is `len(word_index) + 1`, and
`word_index` holds exactly the distinct words of the training sentences
together with the reserved OOV token, so `input_dim` equals the number of
distinct words plus one for the OOV token plus one. -/
theorem embedding_input_dim_spec (its : List Intent) :
    input_dim its = (word_index (sentences its)).length + 1 ∧
    (word_index (sentences its)).length =
      ((sentences its).flatMap textToWordSequence).dedup.length + 1 ∧
    ∀ w, w ∈ (word_index (sentences its)).map Prod.fst ↔
      (w = oovToken ∨ w ∈ (sentences its).flatMap textToWordSequence) := by
  refine ⟨rfl, ?_, ?_⟩
  · rw [length_word_index]
    unfold sortedVoc sortByCountDesc
    rw [List.length_cons, List.length_map, List.length_insertionSort,
      ← List.length_map (wordCounts (sentences its)) Prod.fst,
      length_keys_eq_dedup]
  · intro w
    rw [map_fst_word_index, mem_sortedVoc]

/-- Witness for C5, at the demo dataset. -/
theorem embedding_input_dim_spec_witness :
    input_dim demoIntents = (word_index (sentences demoIntents)).length + 1 ∧
    (word_index (sentences demoIntents)).length =
      ((sentences demoIntents).flatMap textToWordSequence).dedup.length + 1 :=
  ⟨(embedding_input_dim_spec demoIntents).1,
   (embedding_input_dim_spec demoIntents).2.1⟩

/-- C8: the tokenizer's vocabulary is created by `fit_on_texts` and changed
by no later operation: the tokenizer state coming out of
`texts_to_sequences` — the object the script pickles — is the fitted
tokenizer itself, its `word_index` is the one built from the training
sentences, and its keys are exactly the OOV token and the words of the
training sentences. -/
theorem tokenizer_vocab_immutable (its : List Intent) :
    persistedTokenizer its = fittedTokenizer its ∧
    (persistedTokenizer its).wordIndex = word_index (sentences its) ∧
    ∀ w, w ∈ (persistedTokenizer its).wordIndex.map Prod.fst ↔
      (w = oovToken ∨ w ∈ (sentences its).flatMap textToWordSequence) := by
  refine ⟨rfl, rfl, ?_⟩
  intro w
  show w ∈ (word_index (sentences its)).map Prod.fst ↔ _
  rw [map_fst_word_index, mem_sortedVoc]

/-- Witness for C8, at the demo dataset: the persisted tokenizer is the
fitted one and its vocabulary holds the training word `hi`. -/
theorem tokenizer_vocab_immutable_witness :
    persistedTokenizer demoIntents = fittedTokenizer demoIntents ∧
    "hi" ∈ (persistedTokenizer demoIntents).wordIndex.map Prod.fst :=
  ⟨(tokenizer_vocab_immutable demoIntents).1,
   ((tokenizer_vocab_immutable demoIntents).2.2 "hi").mpr (Or.inr (by decide))⟩

/-! ## Token index ranges -/

theorem lookup_indexedFrom_bound :
    ∀ (l : List String) (n : Nat) (w : String) (i : Nat),
      List.lookup w (indexedFrom n l) = some i → n ≤ i ∧ i < n + l.length := by
  intro l
  induction l with
  | nil => intro n w i h; cases h
  | cons x l ih =>
      intro n w i h
      simp only [indexedFrom, List.lookup_cons] at h
      rcases hb : (w == x) with _ | _
      · rw [hb] at h
        have := ih (n + 1) w i h
        simp only [List.length_cons]
        omega
      · rw [hb] at h
        have hi : i = n := by
          injection h with h
          omega
        simp only [List.length_cons]
        omega

theorem lookup_word_index_bound {texts : List String} {w : String} {i : Nat}
    (h : List.lookup w (word_index texts) = some i) :
    1 ≤ i ∧ i ≤ (word_index texts).length := by
  have hb := lookup_indexedFrom_bound (sortedVoc texts) 1 w i h
  rw [length_word_index]
  omega

theorem lookup_oov_word_index (texts : List String) :
    List.lookup oovToken (word_index texts) = some 1 := by
  show List.lookup oovToken (indexedFrom 1 (sortedVoc texts)) = some 1
  unfold sortedVoc
  simp only [indexedFrom, List.lookup_cons, beq_self_eq_true]

theorem one_le_length_word_index (texts : List String) :
    1 ≤ (word_index texts).length := by
  rw [length_word_index]
  unfold sortedVoc
  simp

theorem tokenOf_bounds (its : List Intent) (w : String) :
    1 ≤ tokenOf (fittedTokenizer its) w ∧
    tokenOf (fittedTokenizer its) w ≤ (word_index (sentences its)).length := by
  unfold tokenOf
  show (match List.lookup w (word_index (sentences its)) with
        | some i => i
        | none => (List.lookup oovToken (word_index (sentences its))).getD 0) ∈
      Set.Icc 1 (word_index (sentences its)).length
  cases hl : List.lookup w (word_index (sentences its)) with
  | some i =>
      have := lookup_word_index_bound hl
      exact Set.mem_Icc.mpr this
  | none =>
      rw [lookup_oov_word_index]
      exact Set.mem_Icc.mpr ⟨Nat.le_refl 1, one_le_length_word_index _⟩

theorem mem_sequences_token {its : List Intent} {seq : List Nat} {v : Nat}
    (hseq : seq ∈ sequences its) (hv : v ∈ seq) :
    ∃ w, v = tokenOf (fittedTokenizer its) w := by
  have : seq ∈ (sentences its).map
      (fun t => (textToWordSequence t).map (tokenOf (fittedTokenizer its))) := hseq
  rw [List.mem_map] at this
  obtain ⟨t, _, rfl⟩ := this
  rw [List.mem_map] at hv
  obtain ⟨w, _, rfl⟩ := hv
  exact ⟨w, rfl⟩

theorem getD_replicate_zero (n i : Nat) :
    (List.replicate n (0 : Nat)).getD i 0 = 0 := by
  rw [List.getD_eq_getElem?_getD, List.getElem?_replicate]
  split <;> rfl

/-- C10: every integer of the padded sequences lies in
`[0, len(word_index)]`: token positions carry the original tokenizer
indices, which are at least 1 (so the value 0 occurs only as padding),
padding positions carry 0, and every value is strictly below the Embedding
layer's `input_dim = len(word_index) + 1`, so all embedding lookups are in
range. -/
theorem embedding_indices_in_range (its : List Intent) (m : Nat)
    (h : maxLengthOf (sequences its) = Except.ok m) :
    (∀ s ∈ pad_sequences m (sequences its), ∀ v ∈ s,
        v ≤ (word_index (sentences its)).length ∧ v < input_dim its) ∧
    (∀ i j, i < (sequences its).length → j < ((sequences its).getD i []).length →
        ((pad_sequences m (sequences its)).getD i []).getD j 0 =
          ((sequences its).getD i []).getD j 0 ∧
        1 ≤ ((sequences its).getD i []).getD j 0) ∧
    (∀ i j, i < (sequences its).length → ((sequences its).getD i []).length ≤ j →
        ((pad_sequences m (sequences its)).getD i []).getD j 0 = 0) := by
  have hb := maxLengthOf_le h
  have hdim : input_dim its = (word_index (sentences its)).length + 1 := rfl
  have htok : ∀ (seq : List Nat), seq ∈ sequences its → ∀ v ∈ seq,
      1 ≤ v ∧ v ≤ (word_index (sentences its)).length := by
    intro seq hseq v hv
    obtain ⟨w, rfl⟩ := mem_sequences_token hseq hv
    exact tokenOf_bounds its w
  have hgetD : ∀ i, i < (sequences its).length →
      (pad_sequences m (sequences its)).getD i [] =
        ((sequences its).getD i []) ++
          List.replicate (m - ((sequences its).getD i []).length) 0 := by
    intro i hi
    have hip : i < (pad_sequences m (sequences its)).length := by
      simpa [pad_sequences] using hi
    rw [List.getD_eq_getElem _ _ hip, List.getD_eq_getElem _ _ hi]
    simp only [pad_sequences]
    rw [List.getElem_map]
    exact padOne_of_le (hb _ (List.getElem_mem hi))
  refine ⟨?_, ?_, ?_⟩
  · intro s hs v hv
    simp only [pad_sequences, List.mem_map] at hs
    obtain ⟨seq, hseq, rfl⟩ := hs
    rw [padOne_of_le (hb seq hseq)] at hv
    rcases List.mem_append.mp hv with hv | hv
    · have := htok seq hseq v hv
      omega
    · have : v = 0 := List.eq_of_mem_replicate hv
      omega
  · intro i j hi hj
    rw [hgetD i hi, List.getD_append _ _ _ _ hj]
    refine ⟨rfl, ?_⟩
    have hm : ((sequences its).getD i []).getD j 0 ∈ (sequences its).getD i [] := by
      rw [List.getD_eq_getElem _ _ hj]
      exact List.getElem_mem hj
    have hmem : (sequences its).getD i [] ∈ sequences its := by
      rw [List.getD_eq_getElem _ _ hi]
      exact List.getElem_mem hi
    exact (htok _ hmem _ hm).1
  · intro i j hi hj
    rw [hgetD i hi, List.getD_append_right _ _ _ _ hj, getD_replicate_zero]

/-- Witness for C10: the first token of the demo dataset's padded sequences
is within the embedding range. -/
theorem embedding_indices_in_range_witness :
    2 ≤ (word_index (sentences demoIntents)).length ∧ 2 < input_dim demoIntents :=
  (embedding_indices_in_range demoIntents 3 rfl).1 [2, 3, 0] (by decide) 2 (by decide)

/-! ## Script outputs and failure behavior -/

theorem runScript_ok (its : List Intent) :
    runScript (Except.ok its) =
      match maxLengthOf (sequences its) with
      | Except.ok m => Except.ok (savedFiles its m)
      | Except.error e => Except.error e := by
  show (do
      let m ← maxLengthOf (sequences its)
      pure (savedFiles its m) : Except String (List (String × Artifact))) = _
  cases maxLengthOf (sequences its) <;> rfl

/-- C6: a successful run writes exactly three artifacts, in order the model,
the tokenizer and the label encoder, each to its fixed relative path, and
nothing else. -/
theorem saved_artifacts_spec (its : List Intent) (outs : List (String × Artifact))
    (h : runScript (Except.ok its) = Except.ok outs) :
    outs.map Prod.fst =
      ["../model/chatbot_model.h5", "../model/tokenizer.pickle",
       "../model/label_encoder.pickle"] ∧
    outs.length = 3 := by
  rw [runScript_ok] at h
  cases hm : maxLengthOf (sequences its) with
  | error e => rw [hm] at h; cases h
  | ok m =>
      rw [hm] at h
      injection h with h
      subst h
      exact ⟨rfl, rfl⟩

/-- Witness for C6: the three files of a successful demo run. -/
theorem saved_artifacts_spec_witness :
    (savedFiles demoIntents 3).map Prod.fst =
      ["../model/chatbot_model.h5", "../model/tokenizer.pickle",
       "../model/label_encoder.pickle"] ∧
    (savedFiles demoIntents 3).length = 3 :=
  saved_artifacts_spec demoIntents (savedFiles demoIntents 3) rfl

/-- C7: when loading `../data/intents.json` fails (missing file or malformed
JSON), the failure propagates as the uncaught exception of the run and no
output artifact is written. -/
theorem load_failure_writes_nothing (e : String) :
    runScript (Except.error e) = Except.error e ∧
    writtenFiles (runScript (Except.error e)) = [] :=
  ⟨rfl, rfl⟩

/-- Witness for C7, at a concrete load failure. -/
theorem load_failure_writes_nothing_witness :
    runScript (Except.error "FileNotFoundError") =
      Except.error "FileNotFoundError" ∧
    writtenFiles (runScript (Except.error "FileNotFoundError")) = [] :=
  load_failure_writes_nothing "FileNotFoundError"

end ChatbotTraining
